import Mathlib

/-!
Verification of the live-sync and search subsystem of `mermaid-server`.

The JavaScript sources (`src/lib/utils.js`, `src/server.js`) are embedded
shallowly: pure string algorithms become functions over `List Char`
(JavaScript strings are modelled at character level, faithful for the
ASCII/BMP inputs the properties are about), the filesystem becomes an
explicit tree value, the mutable registries (`clients`, `watchers`,
`debounceTimers`) become explicit state records, and timer/event-loop
behaviour becomes a step function over arrival times.
-/

set_option maxRecDepth 8000

namespace MermaidServer

/-! ## Character utilities

`isWsChar` covers the ASCII whitespace characters matched by the JavaScript
regex class `\s` (space, tab, newline, carriage return, vertical tab, form
feed); the claims only involve ASCII text. -/

def isWsChar (c : Char) : Bool :=
  c = ' ' || c = '\t' || c = '\n' || c = '\r' || c = '\x0b' || c = '\x0c'

/-- Character-level model of `String.prototype.toLowerCase` (ASCII range). -/
def lowerData (s : String) : List Char := s.data.map Char.toLower

/-- Character-level model of `String.prototype.trim`. -/
def trimChars (l : List Char) : List Char :=
  ((l.dropWhile isWsChar).reverse.dropWhile isWsChar).reverse

def jsTrim (s : String) : String := String.mk (trimChars s.data)

def jsLower (s : String) : String := String.mk (lowerData s)

/-- Splitting a character list at separator characters (those satisfying `p`),
dropping empty parts: the model of both `path.split('/')`-into-segments and
`query.split(/\s+/).filter(w => w.length > 0)`. -/
def splitDropAux (p : Char → Bool) : List Char → List Char → List (List Char)
  | [], acc => if acc = [] then [] else [acc.reverse]
  | c :: r, acc =>
    if p c then
      if acc = [] then splitDropAux p r [] else acc.reverse :: splitDropAux p r []
    else splitDropAux p r (c :: acc)

def splitDrop (p : Char → Bool) (l : List Char) : List (List Char) :=
  splitDropAux p l []

/-- The `/`-separated segments of a path string (empty segments dropped,
as `path.posix` normalisation does). -/
def segsOf (l : List Char) : List (List Char) := splitDrop (fun c => c = '/') l

/-- The whitespace-separated words of a string. -/
def wordsOf (l : List Char) : List (List Char) := splitDrop isWsChar l

/-- Model of `String.prototype.indexOf` at character level: index of the first
occurrence of `w` in the list, `none` when absent (JS returns `-1`). -/
def idxOfAux (w : List Char) : List Char → Option Nat
  | [] => if w.isPrefixOf ([] : List Char) then some 0 else none
  | c :: rest =>
    if w.isPrefixOf (c :: rest) then some 0 else (idxOfAux w rest).map (· + 1)

/-- Model of `.replace(/\s+/g, ' ')` (after `.replace(/\n/g, ' ')` every
whitespace run collapses to one space): the `Bool` argument records whether
the previous character was whitespace. -/
def collapseWsAux : Bool → List Char → List Char
  | _, [] => []
  | prevWs, c :: r =>
    if isWsChar c then
      if prevWs then collapseWsAux true r else ' ' :: collapseWsAux true r
    else c :: collapseWsAux false r

def collapseWs (l : List Char) : List Char := collapseWsAux false l

/-- Model of `String.prototype.split('\n')` — keeps empty parts, so the
result length is the 1-based line count. -/
def jsSplitNl : List Char → List (List Char)
  | [] => [[]]
  | c :: r =>
    if c = '\n' then [] :: jsSplitNl r
    else
      match jsSplitNl r with
      | [] => [[c]]
      | s :: ss => (c :: s) :: ss

/-! ## Path model (PathGuard / `isPathWithinProject`, utils.js 89-93)

POSIX path semantics at segment level. `normSegs true` is `path.posix`
normalisation of an absolute path (`.` dropped, `..` pops, excess `..`
dropped at the root); `relSegs`/`renderSegs` compute `path.posix.relative`
of two normalised absolute paths. The source builds an intermediate string
with `path.join(projectPath, filePath)` and re-parses it inside
`path.relative`; since normalised segments are nonempty and `/`-free, that
round trip is the identity and the model fuses it. The model is stated for
an absolute `projectPath` (the server always passes a `path.resolve`d
project root). -/

def dotSegL : List Char := ['.']

def ddSegL : List Char := ['.', '.']

def normStep (abs : Bool) (acc : List (List Char)) (seg : List Char) :
    List (List Char) :=
  if seg = dotSegL then acc
  else if seg = ddSegL then
    match acc.getLast? with
    | some l => if l = ddSegL then acc ++ [ddSegL] else acc.dropLast
    | none => if abs then [] else [ddSegL]
  else acc ++ [seg]

def normSegs (abs : Bool) (segs : List (List Char)) : List (List Char) :=
  segs.foldl (normStep abs) []

/-- Drop the longest common leading run of two segment lists (the shared
ancestor computation inside `path.relative`). -/
def dropCommon : List (List Char) → List (List Char) →
    List (List Char) × List (List Char)
  | a :: as, b :: bs => if a = b then dropCommon as bs else (a :: as, b :: bs)
  | as, bs => (as, bs)

/-- `path.posix.relative` on two normalised absolute segment lists: one `..`
per remaining source segment, then the remaining target segments. -/
def relSegs (fromSegs toSegs : List (List Char)) : List (List Char) :=
  let ft := dropCommon fromSegs toSegs
  ft.1.map (fun _ => ddSegL) ++ ft.2

/-- Render a relative segment list back to a string's characters (the
`/`-joined form `path.relative` returns). -/
def renderSegs : List (List Char) → List Char
  | [] => []
  | [s] => s
  | s :: rest => s ++ '/' :: renderSegs rest

/-- `relative.startsWith('..')` at character level. -/
def startsDD : List Char → Bool
  | '.' :: '.' :: _ => true
  | _ => false

/-- `path.isAbsolute` at character level (POSIX: leading `/`). -/
def headIsSlash : List Char → Bool
  | c :: _ => c = '/'
  | [] => false

/-- Embeds `isPathWithinProject` (src/lib/utils.js lines 89-93):
`path.join(projectPath, filePath)`, then `path.relative(projectPath, ·)`,
then `!relative.startsWith('..') && !path.isAbsolute(relative)`. -/
def isPathWithinProject (projectPath filePath : String) : Bool :=
  let rootSegs := normSegs true (segsOf projectPath.data)
  let fullSegs := normSegs true (segsOf projectPath.data ++ segsOf filePath.data)
  let rel := renderSegs (relSegs rootSegs fullSegs)
  !(startsDD rel) && !(headIsSlash rel)

/-! ## Search engine (utils.js 166-322)

The filesystem traversal inside `searchFiles` produces a list of records
`{fullPath, relativePath, name}` whose contents are then read; the pure
model takes that list directly, with each file's `content` inline and a
`readable` flag embedding the per-file `try/catch` (unreadable files are
skipped by the title and content passes). -/

structure MdFile where
  relativePath : String
  name : String
  content : String
  readable : Bool
deriving DecidableEq

inductive ResultType
  | filename
  | title
  | content
deriving DecidableEq

structure SearchResult where
  type : ResultType
  path : String
  name : String
  snippet : String
  line : Option Nat
deriving DecidableEq

/-- Model of the regex capture `^#\s+(.+)$` attempted at one line start,
on the characters `s` following the `#`: `\s+` greedily takes the leading
whitespace run (which may cross newlines), backtracking so that `(.+)`
still has a first non-`\n` character, and `(.+)$` then takes the maximal
run of non-newline characters. -/
def h1Capture (s : List Char) : Option (List Char) :=
  let k0 := (s.takeWhile isWsChar).length
  if k0 = 0 then none
  else if k0 < s.length then some ((s.drop k0).takeWhile (fun c => c ≠ '\n'))
  else
    ((List.range s.length).reverse.findSome? (fun k =>
      if 1 ≤ k then
        match s.get? k with
        | some c => if c ≠ '\n' then some k else none
        | none => none
      else none)).map (fun k => (s.drop k).takeWhile (fun c => c ≠ '\n'))

/-- Multiline scan for the first `^#` line-start position whose `h1Capture`
succeeds; the `Bool` records whether the scan is at a line start. -/
def scanH1Aux : Bool → List Char → Option (List Char)
  | _, [] => none
  | atStart, c :: r =>
    if atStart && (c == '#') then
      match h1Capture r with
      | some cap => some cap
      | none => scanH1Aux (c == '\n') r
    else scanH1Aux (c == '\n') r

/-- Embeds `extractH1Title` (utils.js 166-169):
`content.match(/^#\s+(.+)$/m)`, returning the trimmed capture. -/
def extractH1Title (content : String) : Option String :=
  (scanH1Aux true content.data).map (fun cap => String.mk (trimChars cap))

/-- Character-level model of `String.prototype.includes`: `w` occurs in
`text` exactly when `indexOf` finds it. -/
def containsSub (text w : List Char) : Bool :=
  (idxOfAux w text).isSome

/-- Embeds `matchesAllWords` (utils.js 177-180): every word occurs in the
lowercased text. -/
def matchesAllWords (text : String) (words : List String) : Bool :=
  words.all (fun w => containsSub (lowerData text) w.data)

/-- Embeds `findFirstMatchIndex` (utils.js 188-198): smallest `indexOf`
over the words, `none` when no word occurs (JS returns `-1`). -/
def findFirstMatchIndex (text : String) (words : List String) : Option Nat :=
  words.foldl (fun acc w =>
    match idxOfAux w.data (lowerData text) with
    | none => acc
    | some i =>
      match acc with
      | none => some i
      | some j => if i < j then some i else acc) none

def filenameResult (f : MdFile) : SearchResult :=
  { type := .filename, path := f.relativePath, name := f.name,
    snippet := f.relativePath, line := none }

def titleResult (f : MdFile) (t : String) : SearchResult :=
  { type := .title, path := f.relativePath, name := f.name,
    snippet := t, line := some 1 }

/-- Embeds the body of the content pass for one file (utils.js 286-314):
snippet window `[matchIndex - 50, matchIndex + 80)` clipped to the text,
newline-to-space then whitespace-collapse then trim, ellipses exactly when
the window was clipped, and line number via `slice(0, idx).split('\n')`. -/
def contentHit (words : List String) (f : MdFile) : Option SearchResult :=
  if matchesAllWords f.content words then
    match findFirstMatchIndex f.content words with
    | some matchIndex =>
      let cs := f.content.data
      let start := matchIndex - 50
      let stop := min cs.length (matchIndex + 80)
      let windowChars := (cs.drop start).take (stop - start)
      let cleaned :=
        trimChars (collapseWs (windowChars.map (fun c => if c = '\n' then ' ' else c)))
      let snippet :=
        (if 0 < start then "...".data else []) ++ cleaned ++
          (if stop < cs.length then "...".data else [])
      some { type := .content, path := f.relativePath, name := f.name,
             snippet := String.mk snippet,
             line := some (jsSplitNl (cs.take matchIndex)).length }
    | none => none
  else none

/-- First pass of `searchFiles` (utils.js 242-254): filename matches. -/
def pass1 (words : List String) (limit : Nat) :
    List MdFile → List SearchResult → List String →
      List SearchResult × List String
  | [], res, seen => (res, seen)
  | f :: rest, res, seen =>
    if limit ≤ res.length then (res, seen)
    else if matchesAllWords f.name words then
      pass1 words limit rest (res ++ [filenameResult f])
        (seen ++ [f.relativePath])
    else pass1 words limit rest res seen

/-- The per-file body of the title pass (utils.js 262-274): extract the H1
title and match it (JS truthiness: a `null` or empty title never
matches). -/
def titleHit (words : List String) (f : MdFile) : Option SearchResult :=
  match extractH1Title f.content with
  | some t =>
    if !t.isEmpty && matchesAllWords t words then some (titleResult f t)
    else none
  | none => none

/-- Second pass of `searchFiles` (utils.js 256-278): H1 title matches on
files not already matched. -/
def pass2 (words : List String) (limit : Nat) :
    List MdFile → List SearchResult → List String →
      List SearchResult × List String
  | [], res, seen => (res, seen)
  | f :: rest, res, seen =>
    if limit ≤ res.length then (res, seen)
    else if seen.contains f.relativePath then pass2 words limit rest res seen
    else if f.readable then
      match titleHit words f with
      | some r =>
        pass2 words limit rest (res ++ [r]) (seen ++ [f.relativePath])
      | none => pass2 words limit rest res seen
    else pass2 words limit rest res seen

/-- Third pass of `searchFiles` (utils.js 280-319): content matches on
files not already matched. -/
def pass3 (words : List String) (limit : Nat) :
    List MdFile → List SearchResult → List String →
      List SearchResult × List String
  | [], res, seen => (res, seen)
  | f :: rest, res, seen =>
    if limit ≤ res.length then (res, seen)
    else if seen.contains f.relativePath then pass3 words limit rest res seen
    else if f.readable then
      match contentHit words f with
      | some r =>
        pass3 words limit rest (res ++ [r]) (seen ++ [f.relativePath])
      | none => pass3 words limit rest res seen
    else pass3 words limit rest res seen

/-- Embeds `searchFiles` (utils.js 207-322) over the scanned file list:
empty/whitespace queries short-circuit to `[]`; otherwise the query is
lowercased, trimmed and split into words, and the three passes run in
order sharing the result list and the seen-path set. -/
def searchFiles (files : List MdFile) (query : String) (limit : Nat) :
    List SearchResult :=
  if (jsTrim query).isEmpty then []
  else
    let searchWords := (wordsOf (jsTrim (jsLower query)).data).map String.mk
    let r1 := pass1 searchWords limit files [] []
    let r2 := pass2 searchWords limit files r1.1 r1.2
    let r3 := pass3 searchWords limit files r2.1 r2.2
    r3.1

/-! ## Subscriber registry and watcher lifecycle (utils.js 95-159,
server.js 745-773)

The module-level `clients` map (`projectId -> Set of res`), the `watchers`
map and the watcher teardown become an explicit state record; connections
are identified by `Nat`. `teardowns` instruments the `watcher.close()`
calls so that "the teardown signal fires" is observable in the model.
JS `Map` preserves insertion order and `Map.set` overwrites in place;
`mapSet`/`mapLookup` model that. A JS `Set` has no duplicates, which is
the `Nodup` part of `WFState`. -/

structure Project where
  id : String
  path : String
deriving DecidableEq

structure SrvState where
  clients : List (String × List Nat)
  watchers : List String
  teardowns : List String
deriving DecidableEq

def mapLookup (m : List (String × List Nat)) (k : String) : Option (List Nat) :=
  match m with
  | [] => none
  | (k2, v) :: rest => if k2 = k then some v else mapLookup rest k

def mapSet (m : List (String × List Nat)) (k : String) (v : List Nat) :
    List (String × List Nat) :=
  match m with
  | [] => [(k, v)]
  | (k2, v2) :: rest =>
    if k2 = k then (k2, v) :: rest else (k2, v2) :: mapSet rest k v

/-- Embeds `addClient` (utils.js 139-142): create the set if absent, then
`Set.add` the connection. -/
def addClient (projectId : String) (res : Nat) (st : SrvState) : SrvState :=
  let m :=
    if (mapLookup st.clients projectId).isNone then
      mapSet st.clients projectId []
    else st.clients
  match mapLookup m projectId with
  | some s =>
    { st with clients := mapSet m projectId (if s.contains res then s else s ++ [res]) }
  | none => st

/-- Embeds `setupWatcher` (utils.js 120-134) on the success path of
`fs.watch` (registration failure leaves the state unchanged and is out of
scope for the claims settled here). -/
def setupWatcher (projectId : String) (st : SrvState) : SrvState :=
  if st.watchers.contains projectId then st
  else { st with watchers := st.watchers ++ [projectId] }

/-- Embeds `removeClient` (utils.js 147-159): delete the connection from
the project's set; when the set becomes empty, close and discard the
watcher if one exists (`teardowns` logs the close). -/
def removeClient (projectId : String) (res : Nat) (st : SrvState) : SrvState :=
  match mapLookup st.clients projectId with
  | none => st
  | some s =>
    let s2 := s.erase res
    let cl2 := mapSet st.clients projectId s2
    if s2.length = 0 then
      if st.watchers.contains projectId then
        { clients := cl2, watchers := st.watchers.erase projectId,
          teardowns := st.teardowns ++ [projectId] }
      else { st with clients := cl2 }
    else { st with clients := cl2 }

/-- The spec's `subscribersOf`: the current subscriber set of a project
(`clients.get(projectId)`, empty when absent). -/
def subscribersOf (projectId : String) (st : SrvState) : List Nat :=
  (mapLookup st.clients projectId).getD []

/-- JS `Set`/`Map` well-formedness of the state: no duplicate map keys, no
duplicate set elements, no duplicate watcher registrations. -/
def WFState (st : SrvState) : Prop :=
  (st.clients.map (·.1)).Nodup ∧ (∀ e ∈ st.clients, e.2.Nodup) ∧
    st.watchers.Nodup

/-- Invariant of the reachable states: a watcher exists only for a project
with at least one subscriber (watchers are only ever created right after
`addClient` in the `/__reload` handler, and `removeClient` tears the
watcher down when the set drains). -/
def WatcherInv (st : SrvState) : Prop :=
  ∀ pid ∈ st.watchers, subscribersOf pid st ≠ []

inductive SseEvent
  | connected
  | ping
  | reload
deriving DecidableEq

/-- Observable outcome of one `/__reload` request: the events written
synchronously to the stream, whether the response was ended immediately,
whether the heartbeat `setInterval` was started, and whether a watcher was
set up. -/
structure ReloadOutcome where
  emitted : List SseEvent
  endedImmediately : Bool
  heartbeatStarted : Bool
  watcherSetup : Bool
deriving DecidableEq

/-- Embeds the `/__reload` handler (server.js 748-773): a falsy
`projectId` (absent query parameter or empty string) ends the response at
once; otherwise the handler writes `data: connected`, starts the heartbeat
interval, registers the connection with `addClient`, and sets up a watcher
only when `config.projects` contains the id. -/
def handleReload (projects : List Project) (projectId : Option String)
    (res : Nat) (st : SrvState) : SrvState × ReloadOutcome :=
  match projectId with
  | none => (st, ⟨[], true, false, false⟩)
  | some pid =>
    if pid = "" then (st, ⟨[], true, false, false⟩)
    else
      let st1 := addClient pid res st
      let found := (projects.find? (fun p => p.id == pid)).isSome
      let st2 := if found then setupWatcher pid st1 else st1
      (st2, ⟨[.connected], false, true, found⟩)

/-! ## Debounced notification (utils.js 96-115)

`debounceTimers` holds at most one timer per project; the claims are about
a single project, so the state is that project's pending fire time plus a
log of the timer-callback executions. Connections carry the `writable` and
`finished` flags consulted by the broadcast loop. -/

structure ConnState where
  id : Nat
  writable : Bool
  finished : Bool
deriving DecidableEq

/-- One micro-action of the timer callback: an SSE write to a connection,
or the `debounceTimers.delete(projectId)` map removal. -/
inductive MicroAct
  | write (c : Nat)
  | delTimer
deriving DecidableEq

/-- Embeds the body of the `setTimeout` callback inside `notifyClients`
(utils.js 106-113), as the ordered list of its observable actions: when no
client set exists it returns at once (no map removal); otherwise it writes
`data: reload` to every writable, unfinished client and then removes the
timer from the map. -/
def timerCallback (projectClients : Option (List ConnState)) : List MicroAct :=
  match projectClients with
  | none => []
  | some cs =>
    (cs.filter (fun c => c.writable && !c.finished)).map
        (fun c => MicroAct.write c.id)
      ++ [MicroAct.delTimer]

/-- The 100 ms quiescence window hard-coded in `notifyClients`. -/
def debounceWindow : Nat := 100

structure DebState where
  pending : Option Nat
  log : List (List MicroAct)
deriving DecidableEq

/-- Embeds `notifyClients` (utils.js 103-115) under event-loop semantics
for one project: a pending timer whose fire time has passed runs first
(appending its callback trace to the log), then the arriving event clears
any pending timer (`clearTimeout`) and schedules a fresh one for
`t + debounceWindow`. -/
def notifyClients (subs : Option (List ConnState)) (s : DebState) (t : Nat) :
    DebState :=
  let s1 : DebState :=
    match s.pending with
    | some f =>
      if f ≤ t then { pending := none, log := s.log ++ [timerCallback subs] }
      else s
    | none => s
  { s1 with pending := some (t + debounceWindow) }

/-- Let the last scheduled timer fire after the burst of events. -/
def flushTimer (subs : Option (List ConnState)) (s : DebState) : DebState :=
  match s.pending with
  | some _ => { pending := none, log := s.log ++ [timerCallback subs] }
  | none => s

/-- Run a burst of `notifyClients` calls at the given arrival times, then
let the final timer fire. -/
def debounceRun (subs : Option (List ConnState)) (ts : List Nat) : DebState :=
  flushTimer subs (ts.foldl (notifyClients subs) ⟨none, []⟩)

/-! ## Directory scanner (`getMarkdownFiles`, utils.js 41-57)

The filesystem is an explicit tree (`FsForest` is the entry list of one
directory, read by `fs.readdirSync`; a missing root is the empty forest).
Real directory entry names are nonempty and never contain `/`, which is
`goodName`. -/

mutual
inductive FsTree where
  | file : String → FsTree
  | dir : String → FsForest → FsTree
deriving DecidableEq
inductive FsForest where
  | nil : FsForest
  | cons : FsTree → FsForest → FsForest
deriving DecidableEq
end

/-- `startsWith('.')` on a character list. -/
def startsDotL : List Char → Bool
  | '.' :: _ => true
  | _ => false

/-- `entry.name.startsWith('.')` at character level. -/
def startsDotStr (n : String) : Bool := startsDotL n.data

/-- Whether a scan entry denotes a directory: the scanner suffixes
directory entries with `/`. -/
def endsSlashStr (p : String) : Bool := p.data.getLast? == some '/'

/-- The skip test of utils.js line 46:
`entry.name.startsWith('.') || entry.name === 'node_modules'`. -/
def skipName (n : String) : Bool := startsDotStr n || n == "node_modules"

/-- `entry.name.endsWith('.md')` at character level. -/
def endsMdStr (n : String) : Bool := (".md".data).isSuffixOf n.data

/-- `path.join(prefix, entry.name)`: with an empty prefix this is the name
itself, otherwise `prefix + '/' + name` (names are `/`-free, so no
normalisation occurs). -/
def joinRel (pfx n : String) : String :=
  if pfx = "" then n else pfx ++ "/" ++ n

mutual
/-- One loop iteration of `getMarkdownFiles` (utils.js 45-55) for a single
directory entry. -/
def mdOfEntry (recursive : Bool) (pfx : String) : FsTree → List String
  | .file n =>
    if skipName n then [] else if endsMdStr n then [joinRel pfx n] else []
  | .dir n cs =>
    if skipName n then []
    else if recursive then mdOfList recursive (joinRel pfx n) cs
    else [joinRel pfx n ++ "/"]
/-- The loop of `getMarkdownFiles` over a directory's entries. -/
def mdOfList (recursive : Bool) (pfx : String) : FsForest → List String
  | .nil => []
  | .cons e rest => mdOfEntry recursive pfx e ++ mdOfList recursive pfx rest
end

/-- Embeds `getMarkdownFiles` (utils.js 41-57) on the entries of `dir`. -/
def getMarkdownFiles (entries : FsForest) (pfx : String)
    (recursive : Bool) : List String :=
  mdOfList recursive pfx entries

/-- A legal directory-entry name: nonempty and without a path separator. -/
def goodName (n : String) : Bool := !(n == "") && !(n.data.contains '/')

mutual
def goodTree : FsTree → Bool
  | .file n => goodName n
  | .dir n cs => goodName n && goodForest cs
def goodForest : FsForest → Bool
  | .nil => true
  | .cons e rest => goodTree e && goodForest rest
end

/-! ## Concrete fixtures used by witnesses and end-to-end scenarios -/

/-- The ranking scenario of the spec: `install.md` matches by filename
only, `guide.md` by title only, `notes.md` by body only. -/
def installDemoFiles : List MdFile :=
  [⟨"notes.md", "notes.md", "# Notes\nyou should install things", true⟩,
   ⟨"install.md", "install.md", "# Setup\nnothing here", true⟩,
   ⟨"guide.md", "guide.md", "# Install Guide\nwords", true⟩]

/-- The content-pass scenario of the spec: `a.md` = "# A\ncontent",
`b.md` = "# Something else\nfind me here". -/
def abDemoFiles : List MdFile :=
  [⟨"a.md", "a.md", "# A\ncontent", true⟩,
   ⟨"b.md", "b.md", "# Something else\nfind me here", true⟩]

/-- A file whose first H1 heading is on line 2, not line 1. -/
def lateH1File : MdFile :=
  ⟨"setup.md", "setup.md", "intro\n# Install Guide\nbody", true⟩

/-- A small directory tree with hidden entries, a `node_modules`
directory and a non-Markdown file. -/
def demoForest : FsForest :=
  .cons (.dir "docs" (.cons (.file "a.md")
      (.cons (.file ".hidden.md") (.cons (.file "b.txt") .nil))))
    (.cons (.dir "node_modules" (.cons (.file "x.md") .nil))
      (.cons (.file "top.md") (.cons (.dir ".git" .nil) .nil)))

/-! ## Basic lemmas about the splitting utilities -/

theorem splitDropAux_append_sep (p : Char → Bool) (s : Char) (hs : p s = true) :
    ∀ (xs ys acc : List Char),
      splitDropAux p (xs ++ s :: ys) acc =
        splitDropAux p xs acc ++ splitDropAux p ys [] := by
  intro xs
  induction xs with
  | nil =>
    intro ys acc
    simp only [List.nil_append, splitDropAux, hs, if_true]
    by_cases hacc : acc = [] <;> simp [hacc, splitDropAux]
  | cons c r ih =>
    intro ys acc
    simp only [List.cons_append, splitDropAux]
    by_cases hc : p c
    · simp only [hc, if_true]
      by_cases hacc : acc = [] <;> simp [hacc, ih]
    · simp only [hc]
      simp [ih]

theorem splitDrop_append_sep (p : Char → Bool) (s : Char) (hs : p s = true)
    (xs ys : List Char) :
    splitDrop p (xs ++ s :: ys) = splitDrop p xs ++ splitDrop p ys := by
  simp [splitDrop, splitDropAux_append_sep p s hs]

theorem splitDropAux_sepfree (p : Char → Bool) :
    ∀ (l acc : List Char), (∀ c ∈ l, p c = false) →
      splitDropAux p l acc =
        if acc.reverse ++ l = [] then [] else [acc.reverse ++ l] := by
  intro l
  induction l with
  | nil =>
    intro acc _
    by_cases hacc : acc = [] <;> simp [splitDropAux, hacc]
  | cons c r ih =>
    intro acc h
    have hc : p c = false := h c (by simp)
    simp only [splitDropAux, hc, Bool.false_eq_true, if_false]
    rw [ih (c :: acc) (fun d hd => h d (by simp [hd]))]
    simp

theorem splitDrop_sepfree (p : Char → Bool) (l : List Char) (hl : l ≠ [])
    (h : ∀ c ∈ l, p c = false) : splitDrop p l = [l] := by
  simp [splitDrop, splitDropAux_sepfree p l [] h, hl]

theorem splitDropAux_mem (p : Char → Bool) :
    ∀ (l acc : List Char), (∀ c ∈ acc, p c = false) →
      ∀ s ∈ splitDropAux p l acc, s ≠ [] ∧ ∀ c ∈ s, p c = false := by
  intro l
  induction l with
  | nil =>
    intro acc hacc s hs
    by_cases h : acc = []
    · simp [splitDropAux, h] at hs
    · simp [splitDropAux, h] at hs
      subst hs
      refine ⟨by simpa using h, ?_⟩
      intro c hc
      exact hacc c (by simpa using hc)
  | cons c r ih =>
    intro acc hacc s hs
    simp only [splitDropAux] at hs
    by_cases hc : p c
    · simp only [hc, if_true] at hs
      by_cases h : acc = []
      · simp only [h, if_true] at hs
        exact ih [] (by simp) s hs
      · simp only [h, if_false] at hs
        rcases List.mem_cons.mp hs with h1 | h2
        · subst h1
          refine ⟨by simpa using h, ?_⟩
          intro d hd
          exact hacc d (by simpa using hd)
        · exact ih [] (by simp) s h2
    · simp only [hc, Bool.false_eq_true, if_false] at hs
      refine ih (c :: acc) ?_ s hs
      intro d hd
      rcases List.mem_cons.mp hd with h1 | h2
      · subst h1; simpa using hc
      · exact hacc d h2

theorem splitDrop_mem (p : Char → Bool) (l : List Char) :
    ∀ s ∈ splitDrop p l, s ≠ [] ∧ ∀ c ∈ s, p c = false :=
  splitDropAux_mem p l [] (by simp)

theorem jsSplitNl_length (l : List Char) :
    (jsSplitNl l).length = l.count '\n' + 1 := by
  induction l with
  | nil => simp [jsSplitNl]
  | cons c r ih =>
    by_cases hc : c = '\n'
    · subst hc
      simp [jsSplitNl, ih, List.count_cons]
    · simp only [jsSplitNl, hc, if_false]
      rcases hr : jsSplitNl r with _ | ⟨s, ss⟩
      · rw [hr] at ih; simp at ih
      · rw [hr] at ih
        simp only [List.length_cons] at ih ⊢
        simp [List.count_cons, hc]
        omega

theorem collapseWsAux_map_nl (b : Bool) (l : List Char) :
    collapseWsAux b (l.map (fun c => if c = '\n' then ' ' else c)) =
      collapseWsAux b l := by
  induction l generalizing b with
  | nil => simp [collapseWsAux]
  | cons c r ih =>
    by_cases hc : isWsChar c
    · have hmap : isWsChar (if c = '\n' then ' ' else c) = true := by
        by_cases h : c = '\n'
        · subst h; decide
        · simpa [h] using hc
      by_cases hb : b <;>
        simp [collapseWsAux, hmap, hc, hb, ih]
    · have hnl : c ≠ '\n' := by
        intro h; subst h; simp [isWsChar] at hc
      simp [collapseWsAux, hnl, hc, ih]


/-! ### Path lemmas -/

theorem normSegs_append (abs : Bool) (a b : List (List Char)) :
    normSegs abs (a ++ b) = b.foldl (normStep abs) (normSegs abs a) := by
  simp [normSegs, List.foldl_append]

/-- Without any `..` segment, normalisation just appends the non-`.`
segments. -/
theorem foldl_normStep_no_dd (abs : Bool) :
    ∀ (b : List (List Char)) (acc : List (List Char)), ddSegL ∉ b →
      b.foldl (normStep abs) acc = acc ++ b.filter (fun s => s ≠ dotSegL) := by
  intro b
  induction b with
  | nil => intro acc _; simp
  | cons s r ih =>
    intro acc h
    have hdd : s ≠ ddSegL := by
      intro hs; exact h (by simp [hs])
    have hr : ddSegL ∉ r := fun hm => h (by simp [hm])
    by_cases hdot : s = dotSegL
    · simp only [List.foldl_cons, normStep, hdot, if_true]
      rw [ih acc hr]
      simp
    · simp only [List.foldl_cons, normStep, hdot, if_false, hdd, if_false]
      rw [ih (acc ++ [s]) hr]
      simp [hdot]

theorem dropCommon_self (a t : List (List Char)) :
    dropCommon a (a ++ t) = ([], t) := by
  induction a with
  | nil =>
    cases t <;> simp [dropCommon]
  | cons s r ih => simp [dropCommon, ih]

theorem dropCommon_fst_ne_nil (a b : List (List Char))
    (h : a.isPrefixOf b = false) :
    ∃ f fs t, dropCommon a b = (f :: fs, t) := by
  induction a generalizing b with
  | nil => simp [List.isPrefixOf] at h
  | cons x xs ih =>
    cases b with
    | nil => exact ⟨x, xs, [], rfl⟩
    | cons y ys =>
      by_cases hxy : x = y
      · subst hxy
        simp only [List.isPrefixOf, Bool.and_eq_false_iff] at h
        rcases h with h | h
        · simp at h
        · rcases ih ys h with ⟨f, fs, t, ht⟩
          exact ⟨f, fs, t, by simp [dropCommon, ht]⟩
      · exact ⟨x, xs, y :: ys, by simp [dropCommon, hxy]⟩

theorem startsDD_append_slash (s x : List Char) :
    startsDD (s ++ '/' :: x) = startsDD s := by
  match s with
  | [] => simp [startsDD]
  | [c] =>
    show startsDD (c :: '/' :: x) = startsDD [c]
    have h1 : startsDD (c :: '/' :: x) = false := by
      by_cases hc : c = '.' <;> simp [startsDD, hc]
    have h2 : startsDD [c] = false := by
      by_cases hc : c = '.' <;> simp [startsDD, hc]
    rw [h1, h2]
  | c1 :: c2 :: rest =>
    show startsDD (c1 :: c2 :: (rest ++ '/' :: x)) = startsDD (c1 :: c2 :: rest)
    by_cases h1 : c1 = '.' <;> by_cases h2 : c2 = '.' <;>
      simp [startsDD, h1, h2]

theorem startsDD_render_cons (s : List Char) (rest : List (List Char)) :
    startsDD (renderSegs (s :: rest)) = startsDD s := by
  cases rest with
  | nil => rfl
  | cons t ts => exact startsDD_append_slash s (renderSegs (t :: ts))

/-- Part (a) of the PathGuard property: a join that escapes the root (the
normalised root segments are not a prefix of the normalised joined
segments) is rejected. Part (b), amended: a relative path with no `..`
segment is accepted provided its first non-`.` segment does not begin with
two literal dots (the source's `relative.startsWith('..')` test also
rejects in-root names such as `..x`, which forces the extra proviso). -/
theorem isPathWithinProject_spec (root p : String)
    (habs : headIsSlash root.data = true) :
    ((normSegs true (segsOf root.data)).isPrefixOf
        (normSegs true (segsOf root.data ++ segsOf p.data)) = false →
      isPathWithinProject root p = false)
    ∧ (ddSegL ∉ segsOf p.data →
      headIsSlash p.data = false →
      startsDD (((segsOf p.data).filter (fun s => s ≠ dotSegL)).headD []) = false →
      isPathWithinProject root p = true) := by
  constructor
  · intro h
    rcases dropCommon_fst_ne_nil _ _ h with ⟨f, fs, t, ht⟩
    simp only [isPathWithinProject, relSegs, ht, List.map_cons, List.cons_append]
    rw [startsDD_render_cons]
    simp [ddSegL, startsDD]
  · intro hdd _ hhead
    simp only [isPathWithinProject, relSegs]
    rw [normSegs_append, foldl_normStep_no_dd true _ _ hdd, dropCommon_self]
    simp only [List.map_nil, List.nil_append]
    set cleanP := (segsOf p.data).filter (fun s => s ≠ dotSegL) with hclean
    cases hc : cleanP with
    | nil => decide
    | cons s rest =>
      rw [startsDD_render_cons]
      have hsmem : s ∈ segsOf p.data := by
        have : s ∈ cleanP := by rw [hc]; simp
        exact List.mem_of_mem_filter this
      have hsprops := splitDrop_mem _ _ s hsmem
      have hslash : headIsSlash (renderSegs (s :: rest)) = false := by
        rcases s with _ | ⟨c, cs⟩
        · exact absurd rfl hsprops.1
        · have hcne : c ≠ '/' := by simpa using hsprops.2 c (by simp)
          cases rest with
          | nil => simp [renderSegs, headIsSlash, hcne]
          | cons t ts => simp [renderSegs, headIsSlash, hcne]
      have hsdd : startsDD s = false := by
        rw [hc] at hhead; simpa using hhead
      rw [hsdd, hslash]
      rfl


/-! ## Search pass lemmas -/

theorem titleHit_fields (words : List String) (f : MdFile) (r : SearchResult)
    (h : titleHit words f = some r) :
    r.type = .title ∧ r.line = some 1 ∧ r.path = f.relativePath := by
  unfold titleHit at h
  cases ht : extractH1Title f.content with
  | none => rw [ht] at h; exact absurd h (by simp)
  | some t =>
    rw [ht] at h
    by_cases hm : (!t.isEmpty && matchesAllWords t words) = true
    · simp only [hm, if_true, Option.some.injEq] at h
      subst h
      exact ⟨rfl, rfl, rfl⟩
    · simp only [hm] at h
      exact absurd h (by simp)

theorem contentHit_fields (words : List String) (f : MdFile) (r : SearchResult)
    (h : contentHit words f = some r) :
    r.type = .content ∧ r.path = f.relativePath := by
  unfold contentHit at h
  by_cases hm : matchesAllWords f.content words
  · rw [if_pos hm] at h
    cases hi : findFirstMatchIndex f.content words with
    | none => rw [hi] at h; exact absurd h (by simp)
    | some i =>
      rw [hi] at h
      simp only [Option.some.injEq] at h
      subst h
      exact ⟨rfl, rfl⟩
  · rw [if_neg hm] at h; exact absurd h (by simp)

theorem pass1_shape (words : List String) (limit : Nat) :
    ∀ (files : List MdFile) (res : List SearchResult) (seen : List String),
      ∃ new, pass1 words limit files res seen =
          (res ++ new, seen ++ new.map (·.path))
        ∧ ∀ r ∈ new, r.type = .filename ∧ r.line = none := by
  intro files
  induction files with
  | nil => intro res seen; exact ⟨[], by simp [pass1], by simp⟩
  | cons f rest ih =>
    intro res seen
    by_cases hl : limit ≤ res.length
    · exact ⟨[], by simp [pass1, hl], by simp⟩
    · by_cases hm : matchesAllWords f.name words
      · rcases ih (res ++ [filenameResult f]) (seen ++ [f.relativePath]) with
          ⟨new, heq, hp⟩
        refine ⟨filenameResult f :: new, ?_, ?_⟩
        · rw [show pass1 words limit (f :: rest) res seen
              = pass1 words limit rest (res ++ [filenameResult f])
                  (seen ++ [f.relativePath]) by simp [pass1, hl, hm]]
          rw [heq]
          simp [filenameResult]
        · intro r hr
          rcases List.mem_cons.mp hr with h | h
          · subst h; exact ⟨rfl, rfl⟩
          · exact hp r h
      · rcases ih res seen with ⟨new, heq, hp⟩
        exact ⟨new, by simp [pass1, hl, hm, heq], hp⟩

theorem pass2_shape (words : List String) (limit : Nat) :
    ∀ (files : List MdFile) (res : List SearchResult) (seen : List String),
      ∃ new, pass2 words limit files res seen =
          (res ++ new, seen ++ new.map (·.path))
        ∧ ∀ r ∈ new, r.type = .title ∧ r.line = some 1 := by
  intro files
  induction files with
  | nil => intro res seen; exact ⟨[], by simp [pass2], by simp⟩
  | cons f rest ih =>
    intro res seen
    by_cases hl : limit ≤ res.length
    · exact ⟨[], by simp [pass2, hl], by simp⟩
    · by_cases hs : f.relativePath ∈ seen
      · rcases ih res seen with ⟨new, heq, hp⟩
        exact ⟨new, by simp [pass2, hl, hs, heq], hp⟩
      · by_cases hrd : f.readable = true
        · cases hc : titleHit words f with
          | none =>
            rcases ih res seen with ⟨new, heq, hp⟩
            exact ⟨new, by simp [pass2, hl, hs, hrd, hc, heq], hp⟩
          | some r0 =>
            rcases ih (res ++ [r0]) (seen ++ [f.relativePath]) with
              ⟨new, heq, hp⟩
            rcases titleHit_fields words f r0 hc with ⟨hty, hln, hpa⟩
            refine ⟨r0 :: new, ?_, ?_⟩
            · rw [show pass2 words limit (f :: rest) res seen
                  = pass2 words limit rest (res ++ [r0])
                      (seen ++ [f.relativePath]) by simp [pass2, hl, hs, hrd, hc]]
              rw [heq]
              simp [hpa]
            · intro r hr
              rcases List.mem_cons.mp hr with h | h
              · subst h; exact ⟨hty, hln⟩
              · exact hp r h
        · rcases ih res seen with ⟨new, heq, hp⟩
          exact ⟨new, by simp [pass2, hl, hs, hrd, heq], hp⟩

theorem pass3_shape (words : List String) (limit : Nat) :
    ∀ (files : List MdFile) (res : List SearchResult) (seen : List String),
      ∃ new, pass3 words limit files res seen =
          (res ++ new, seen ++ new.map (·.path))
        ∧ ∀ r ∈ new, r.type = .content := by
  intro files
  induction files with
  | nil => intro res seen; exact ⟨[], by simp [pass3], by simp⟩
  | cons f rest ih =>
    intro res seen
    by_cases hl : limit ≤ res.length
    · exact ⟨[], by simp [pass3, hl], by simp⟩
    · by_cases hs : f.relativePath ∈ seen
      · rcases ih res seen with ⟨new, heq, hp⟩
        exact ⟨new, by simp [pass3, hl, hs, heq], hp⟩
      · by_cases hrd : f.readable = true
        · cases hc : contentHit words f with
          | none =>
            rcases ih res seen with ⟨new, heq, hp⟩
            exact ⟨new, by simp [pass3, hl, hs, hrd, hc, heq], hp⟩
          | some r0 =>
            rcases ih (res ++ [r0]) (seen ++ [f.relativePath]) with
              ⟨new, heq, hp⟩
            rcases contentHit_fields words f r0 hc with ⟨hty, hpa⟩
            refine ⟨r0 :: new, ?_, ?_⟩
            · rw [show pass3 words limit (f :: rest) res seen
                  = pass3 words limit rest (res ++ [r0])
                      (seen ++ [f.relativePath]) by simp [pass3, hl, hs, hrd, hc]]
              rw [heq]
              simp [hpa]
            · intro r hr
              rcases List.mem_cons.mp hr with h | h
              · subst h; exact hty
              · exact hp r h
        · rcases ih res seen with ⟨new, heq, hp⟩
          exact ⟨new, by simp [pass3, hl, hs, hrd, heq], hp⟩

theorem pass1_length_le (words : List String) (limit : Nat) :
    ∀ (files : List MdFile) (res : List SearchResult) (seen : List String),
      res.length ≤ limit →
      (pass1 words limit files res seen).1.length ≤ limit := by
  intro files
  induction files with
  | nil => intro res seen h; simpa [pass1] using h
  | cons f rest ih =>
    intro res seen h
    by_cases hl : limit ≤ res.length
    · simpa [pass1, hl] using h
    · by_cases hm : matchesAllWords f.name words
      · simp only [pass1, hl, if_false, hm, if_true]
        exact ih _ _ (by simp; omega)
      · simp only [pass1, hl, if_false, hm, Bool.false_eq_true]
        exact ih _ _ h

theorem pass2_length_le (words : List String) (limit : Nat) :
    ∀ (files : List MdFile) (res : List SearchResult) (seen : List String),
      res.length ≤ limit →
      (pass2 words limit files res seen).1.length ≤ limit := by
  intro files
  induction files with
  | nil => intro res seen h; simpa [pass2] using h
  | cons f rest ih =>
    intro res seen h
    rcases pass2_shape words limit (f :: rest) res seen with ⟨new, heq, -⟩
    rcases pass2_shape words limit rest res seen with ⟨new2, heq2, -⟩
    by_cases hl : limit ≤ res.length
    · simpa [pass2, hl] using h
    · by_cases hs : f.relativePath ∈ seen
      · rw [show pass2 words limit (f :: rest) res seen
            = pass2 words limit rest res seen by simp [pass2, hl, hs]]
        exact ih _ _ h
      · by_cases hrd : f.readable = true
        · cases hc : titleHit words f with
          | none =>
            rw [show pass2 words limit (f :: rest) res seen
                = pass2 words limit rest res seen by simp [pass2, hl, hs, hrd, hc]]
            exact ih _ _ h
          | some r0 =>
            rw [show pass2 words limit (f :: rest) res seen
                = pass2 words limit rest (res ++ [r0]) (seen ++ [f.relativePath]) by
              simp [pass2, hl, hs, hrd, hc]]
            exact ih _ _ (by simp; omega)
        · rw [show pass2 words limit (f :: rest) res seen
              = pass2 words limit rest res seen by simp [pass2, hl, hs, hrd]]
          exact ih _ _ h

theorem pass3_length_le (words : List String) (limit : Nat) :
    ∀ (files : List MdFile) (res : List SearchResult) (seen : List String),
      res.length ≤ limit →
      (pass3 words limit files res seen).1.length ≤ limit := by
  intro files
  induction files with
  | nil => intro res seen h; simpa [pass3] using h
  | cons f rest ih =>
    intro res seen h
    by_cases hl : limit ≤ res.length
    · simpa [pass3, hl] using h
    · by_cases hs : f.relativePath ∈ seen
      · rw [show pass3 words limit (f :: rest) res seen
            = pass3 words limit rest res seen by simp [pass3, hl, hs]]
        exact ih _ _ h
      · by_cases hrd : f.readable = true
        · cases hc : contentHit words f with
          | none =>
            rw [show pass3 words limit (f :: rest) res seen
                = pass3 words limit rest res seen by simp [pass3, hl, hs, hrd, hc]]
            exact ih _ _ h
          | some r0 =>
            rw [show pass3 words limit (f :: rest) res seen
                = pass3 words limit rest (res ++ [r0]) (seen ++ [f.relativePath]) by
              simp [pass3, hl, hs, hrd, hc]]
            exact ih _ _ (by simp; omega)
        · rw [show pass3 words limit (f :: rest) res seen
              = pass3 words limit rest res seen by simp [pass3, hl, hs, hrd]]
          exact ih _ _ h

/-! ## Seen-set distinctness lemmas -/

theorem pass1_seen_nodup (words : List String) (limit : Nat) :
    ∀ (files : List MdFile) (res : List SearchResult) (seen : List String),
      seen.Nodup → (∀ f ∈ files, f.relativePath ∉ seen) →
      (files.map (·.relativePath)).Nodup →
      (pass1 words limit files res seen).2.Nodup := by
  intro files
  induction files with
  | nil => intro res seen h1 _ _; simpa [pass1] using h1
  | cons f rest ih =>
    intro res seen h1 h2 h3
    by_cases hl : limit ≤ res.length
    · simpa [pass1, hl] using h1
    · simp only [List.map_cons, List.nodup_cons] at h3
      by_cases hm : matchesAllWords f.name words
      · rw [show pass1 words limit (f :: rest) res seen
            = pass1 words limit rest (res ++ [filenameResult f])
                (seen ++ [f.relativePath]) by simp [pass1, hl, hm]]
        refine ih _ _ ?_ ?_ h3.2
        · rw [List.nodup_append]
          refine ⟨h1, List.nodup_singleton _, ?_⟩
          intro a ha hb
          rw [List.mem_singleton] at hb
          exact h2 f (by simp) (hb ▸ ha)
        · intro g hg
          simp only [List.mem_append, List.mem_singleton]
          rintro (hgs | hgp)
          · exact h2 g (by simp [hg]) hgs
          · exact h3.1 (hgp ▸ List.mem_map_of_mem (·.relativePath) hg)
      · rw [show pass1 words limit (f :: rest) res seen
            = pass1 words limit rest res seen by simp [pass1, hl, hm]]
        exact ih _ _ h1 (fun g hg => h2 g (by simp [hg])) h3.2

theorem pass2_seen_nodup (words : List String) (limit : Nat) :
    ∀ (files : List MdFile) (res : List SearchResult) (seen : List String),
      seen.Nodup → (pass2 words limit files res seen).2.Nodup := by
  intro files
  induction files with
  | nil => intro res seen h1; simpa [pass2] using h1
  | cons f rest ih =>
    intro res seen h1
    by_cases hl : limit ≤ res.length
    · simpa [pass2, hl] using h1
    · by_cases hs : f.relativePath ∈ seen
      · rw [show pass2 words limit (f :: rest) res seen
            = pass2 words limit rest res seen by simp [pass2, hl, hs]]
        exact ih _ _ h1
      · by_cases hrd : f.readable = true
        · cases hc : titleHit words f with
          | none =>
            rw [show pass2 words limit (f :: rest) res seen
                = pass2 words limit rest res seen by simp [pass2, hl, hs, hrd, hc]]
            exact ih _ _ h1
          | some r0 =>
            rw [show pass2 words limit (f :: rest) res seen
                = pass2 words limit rest (res ++ [r0])
                    (seen ++ [f.relativePath]) by simp [pass2, hl, hs, hrd, hc]]
            refine ih _ _ ?_
            rw [List.nodup_append]
            refine ⟨h1, List.nodup_singleton _, ?_⟩
            intro a ha hb
            rw [List.mem_singleton] at hb
            exact hs (hb ▸ ha)
        · rw [show pass2 words limit (f :: rest) res seen
              = pass2 words limit rest res seen by simp [pass2, hl, hs, hrd]]
          exact ih _ _ h1

theorem pass3_seen_nodup (words : List String) (limit : Nat) :
    ∀ (files : List MdFile) (res : List SearchResult) (seen : List String),
      seen.Nodup → (pass3 words limit files res seen).2.Nodup := by
  intro files
  induction files with
  | nil => intro res seen h1; simpa [pass3] using h1
  | cons f rest ih =>
    intro res seen h1
    by_cases hl : limit ≤ res.length
    · simpa [pass3, hl] using h1
    · by_cases hs : f.relativePath ∈ seen
      · rw [show pass3 words limit (f :: rest) res seen
            = pass3 words limit rest res seen by simp [pass3, hl, hs]]
        exact ih _ _ h1
      · by_cases hrd : f.readable = true
        · cases hc : contentHit words f with
          | none =>
            rw [show pass3 words limit (f :: rest) res seen
                = pass3 words limit rest res seen by simp [pass3, hl, hs, hrd, hc]]
            exact ih _ _ h1
          | some r0 =>
            rw [show pass3 words limit (f :: rest) res seen
                = pass3 words limit rest (res ++ [r0])
                    (seen ++ [f.relativePath]) by simp [pass3, hl, hs, hrd, hc]]
            refine ih _ _ ?_
            rw [List.nodup_append]
            refine ⟨h1, List.nodup_singleton _, ?_⟩
            intro a ha hb
            rw [List.mem_singleton] at hb
            exact hs (hb ▸ ha)
        · rw [show pass3 words limit (f :: rest) res seen
              = pass3 words limit rest res seen by simp [pass3, hl, hs, hrd]]
          exact ih _ _ h1

/-- Global decomposition of a `searchFiles` run with a non-blank query:
the output is the filename-pass results, then the title-pass results,
then the content-pass results, and under distinct input paths no path
repeats. -/
theorem searchFiles_shape (files : List MdFile) (query : String) (limit : Nat)
    (hq : ¬ (jsTrim query).isEmpty = true) :
    ∃ n1 n2 n3,
      searchFiles files query limit = n1 ++ n2 ++ n3
      ∧ (∀ r ∈ n1, r.type = .filename ∧ r.line = none)
      ∧ (∀ r ∈ n2, r.type = .title ∧ r.line = some 1)
      ∧ (∀ r ∈ n3, r.type = .content)
      ∧ ((files.map (·.relativePath)).Nodup →
          ((searchFiles files query limit).map (·.path)).Nodup) := by
  simp only [searchFiles]
  rw [if_neg hq]
  set words := (wordsOf (jsTrim (jsLower query)).data).map String.mk with hwords
  obtain ⟨n1, e1, p1⟩ := pass1_shape words limit files [] []
  obtain ⟨n2, e2, p2⟩ :=
    pass2_shape words limit files ([] ++ n1) ([] ++ n1.map (·.path))
  obtain ⟨n3, e3, p3⟩ :=
    pass3_shape words limit files (([] ++ n1) ++ n2)
      (([] ++ n1.map (·.path)) ++ n2.map (·.path))
  have nd3 : (pass3 words limit files
      (pass2 words limit files (pass1 words limit files [] []).1
        (pass1 words limit files [] []).2).1
      (pass2 words limit files (pass1 words limit files [] []).1
        (pass1 words limit files [] []).2).2).2.Nodup →
        (n1.map (fun r : SearchResult => r.path)
          ++ n2.map (fun r : SearchResult => r.path)
          ++ n3.map (fun r : SearchResult => r.path)).Nodup := by
    intro h
    rw [e1] at h
    dsimp only at h
    rw [e2] at h
    dsimp only at h
    rw [e3] at h
    simpa using h
  rw [e1]
  dsimp only
  rw [e2]
  dsimp only
  rw [e3]
  dsimp only
  refine ⟨n1, n2, n3, by simp, p1, p2, p3, ?_⟩
  intro hnd
  have base : ((pass1 words limit files [] []).2).Nodup :=
    pass1_seen_nodup words limit files [] [] (by simp) (by simp) hnd
  have snd2 : (pass2 words limit files (pass1 words limit files [] []).1
      (pass1 words limit files [] []).2).2.Nodup :=
    pass2_seen_nodup words limit files _ _ base
  have snd3 := pass3_seen_nodup words limit files
    (pass2 words limit files (pass1 words limit files [] []).1
      (pass1 words limit files [] []).2).1
    (pass2 words limit files (pass1 words limit files [] []).1
      (pass1 words limit files [] []).2).2 snd2
  have := nd3 snd3
  simpa using this

/-! ## Claim C6, C9, C10 -/

/-- C6 (confirmed): search runs its three passes in strict priority order
and skips files matched earlier: every output splits into filename
results, then title results, then content results, no path repeats (for
the distinct paths the traversal produces), and the install.md/Install
Guide scenario returns the filename match, then the title match, then the
body-only match. -/
theorem searchFiles_ranking :
    (∀ (files : List MdFile) (query : String) (limit : Nat),
        (files.map (·.relativePath)).Nodup →
        (∃ l1 l2 l3, searchFiles files query limit = l1 ++ l2 ++ l3
          ∧ (∀ r ∈ l1, r.type = .filename) ∧ (∀ r ∈ l2, r.type = .title)
          ∧ (∀ r ∈ l3, r.type = .content))
        ∧ ((searchFiles files query limit).map (·.path)).Nodup)
    ∧ searchFiles installDemoFiles "install" 15 =
        [⟨.filename, "install.md", "install.md", "install.md", none⟩,
         ⟨.title, "guide.md", "guide.md", "Install Guide", some 1⟩,
         ⟨.content, "notes.md", "notes.md",
           "# Notes you should install things", some 2⟩] := by
  constructor
  · intro files query limit hnd
    by_cases hq : (jsTrim query).isEmpty = true
    · refine ⟨⟨[], [], [], by simp [searchFiles, hq], by simp, by simp,
        by simp⟩, ?_⟩
      simp [searchFiles, hq]
    · obtain ⟨n1, n2, n3, he, p1, p2, p3, hnodup⟩ :=
        searchFiles_shape files query limit hq
      exact ⟨⟨n1, n2, n3, he, fun r hr => (p1 r hr).1,
        fun r hr => (p2 r hr).1, p3⟩, hnodup hnd⟩
  · decide

/-- Witness for C6: the general part applied to the install scenario. -/
theorem searchFiles_ranking_witness :
    (∃ l1 l2 l3, searchFiles installDemoFiles "install" 15 = l1 ++ l2 ++ l3
      ∧ (∀ r ∈ l1, r.type = .filename) ∧ (∀ r ∈ l2, r.type = .title)
      ∧ (∀ r ∈ l3, r.type = .content))
    ∧ ((searchFiles installDemoFiles "install" 15).map (·.path)).Nodup :=
  searchFiles_ranking.1 installDemoFiles "install" 15 (by decide)

/-- C9 (confirmed): search returns at most `limit` results, and a blank
(empty or whitespace-only) query returns `[]` for every file list — the
guard fires before any file is consulted. -/
theorem searchFiles_limit_blank (files : List MdFile) (query : String)
    (limit : Nat) :
    (searchFiles files query limit).length ≤ limit
    ∧ ((jsTrim query).isEmpty = true → searchFiles files query limit = []) := by
  constructor
  · by_cases hq : (jsTrim query).isEmpty = true
    · simp [searchFiles, hq]
    · simp only [searchFiles]
      rw [if_neg hq]
      exact pass3_length_le _ _ _ _ _
        (pass2_length_le _ _ _ _ _ (pass1_length_le _ _ _ _ _ (by simp)))
  · intro hq
    simp [searchFiles, hq]

/-- Witness for C9 at a whitespace query. -/
theorem searchFiles_limit_blank_witness :
    (searchFiles installDemoFiles " " 2).length ≤ 2
    ∧ searchFiles installDemoFiles " " 2 = [] :=
  ⟨(searchFiles_limit_blank installDemoFiles " " 2).1,
   (searchFiles_limit_blank installDemoFiles " " 2).2 (by decide)⟩

/-- C10 (confirmed): every title-pass search result carries line number 1
(the pass hard-codes `line: 1`), even when the matching H1 heading is not
on the first line — in `lateH1File` the heading sits on line 2 yet the
result reports line 1. -/
theorem title_results_line_one :
    (∀ (files : List MdFile) (query : String) (limit : Nat)
        (r : SearchResult), r ∈ searchFiles files query limit →
        r.type = .title → r.line = some 1)
    ∧ searchFiles [lateH1File] "install" 15 =
        [⟨.title, "setup.md", "setup.md", "Install Guide", some 1⟩] := by
  constructor
  · intro files query limit r hr hty
    by_cases hq : (jsTrim query).isEmpty = true
    · rw [show searchFiles files query limit = []
          by simp [searchFiles, hq]] at hr
      exact absurd hr (List.not_mem_nil r)
    · obtain ⟨n1, n2, n3, he, p1, p2, p3, -⟩ :=
        searchFiles_shape files query limit hq
      rw [he] at hr
      rcases List.mem_append.mp hr with h12 | h3
      · rcases List.mem_append.mp h12 with h1 | h2
        · exact absurd hty (by simp [(p1 r h1).1])
        · exact (p2 r h2).2
      · exact absurd hty (by simp [p3 r h3])
  · decide

/-- Witness for C10: the general part applied to the late-heading file. -/
theorem title_results_line_one_witness :
    (⟨.title, "setup.md", "setup.md", "Install Guide", some 1⟩ :
      SearchResult).line = some 1 :=
  title_results_line_one.1 [lateH1File] "install" 15 _ (by decide) (by decide)

/-! ## Claim C7 -/

theorem window_take_drop (l : List Char) (a b : Nat) :
    (l.drop a).take (min l.length b - a) = (l.take b).drop a := by
  rw [List.drop_take]
  rcases Nat.le_total b l.length with h | h
  · rw [Nat.min_eq_right h]
  · rw [Nat.min_eq_left h]
    rw [List.take_of_length_le (by simp only [List.length_drop]; omega),
      List.take_of_length_le (by simp only [List.length_drop]; omega)]

theorem collapseWs_map_nl (l : List Char) :
    collapseWs (l.map (fun c => if c = '\n' then ' ' else c)) = collapseWs l :=
  collapseWsAux_map_nl false l

/-- C7 (confirmed): every content-pass result's snippet is the window of
50 characters before and 80 after the earliest query-word occurrence,
clipped to the text, with whitespace runs (newlines included) collapsed
to single spaces, trimmed, and an ellipsis added exactly on the clipped
ends; the line number is 1 plus the newlines before the offset; and the
a.md/b.md scenario returns exactly one content match, for b.md, line 2,
with snippet containing "find me here". -/
theorem contentHit_snippet_line :
    (∀ (words : List String) (f : MdFile) (r : SearchResult),
        contentHit words f = some r →
        ∃ i, findFirstMatchIndex f.content words = some i
          ∧ r.line = some ((f.content.data.take i).count '\n' + 1)
          ∧ r.snippet = String.mk
              ((if 50 < i then "...".data else [])
                ++ trimChars (collapseWs
                    ((f.content.data.take (i + 80)).drop (i - 50)))
                ++ (if i + 80 < f.content.data.length then "...".data
                    else [])))
    ∧ searchFiles abDemoFiles "find" 15 =
        [⟨.content, "b.md", "b.md", "# Something else find me here",
          some 2⟩] := by
  constructor
  · intro words f r h
    unfold contentHit at h
    by_cases hm : matchesAllWords f.content words
    · rw [if_pos hm] at h
      cases hi : findFirstMatchIndex f.content words with
      | none => rw [hi] at h; exact absurd h (by simp)
      | some i =>
        rw [hi] at h
        simp only [Option.some.injEq] at h
        subst h
        refine ⟨i, rfl, ?_, ?_⟩
        · show some (jsSplitNl (f.content.data.take i)).length = _
          rw [jsSplitNl_length]
        · show String.mk _ = String.mk _
          have h1 : (if 0 < i - 50 then "...".data else ([] : List Char))
              = (if 50 < i then "...".data else []) := by
            by_cases hc : 50 < i
            · rw [if_pos (by omega), if_pos hc]
            · rw [if_neg (by omega), if_neg hc]
          have h2 : (if min f.content.data.length (i + 80)
                < f.content.data.length then "...".data else ([] : List Char))
              = (if i + 80 < f.content.data.length then "...".data
                  else []) := by
            by_cases hc : i + 80 < f.content.data.length
            · rw [if_pos (by omega), if_pos hc]
            · rw [if_neg (by omega), if_neg hc]
          have hw : collapseWs
              (((f.content.data.drop (i - 50)).take
                  (min f.content.data.length (i + 80) - (i - 50))).map
                (fun c => if c = '\n' then ' ' else c))
              = collapseWs ((f.content.data.take (i + 80)).drop (i - 50)) := by
            rw [collapseWs_map_nl, window_take_drop]
          rw [h1, h2, hw]
    · rw [if_neg hm] at h; exact absurd h (by simp)
  · decide

/-- Witness for C7: the general part applied to a concrete content hit. -/
theorem contentHit_snippet_line_witness :
    ∃ i, findFirstMatchIndex
        (⟨"x.md", "x.md", "ab\ncd", true⟩ : MdFile).content ["cd"] = some i
      ∧ (⟨.content, "x.md", "x.md", "ab cd", some 2⟩ : SearchResult).line
          = some (((⟨"x.md", "x.md", "ab\ncd", true⟩ :
              MdFile).content.data.take i).count '\n' + 1)
      ∧ (⟨.content, "x.md", "x.md", "ab cd", some 2⟩ : SearchResult).snippet
          = String.mk
              ((if 50 < i then "...".data else [])
                ++ trimChars (collapseWs
                    (((⟨"x.md", "x.md", "ab\ncd", true⟩ :
                        MdFile).content.data.take (i + 80)).drop (i - 50)))
                ++ (if i + 80 < (⟨"x.md", "x.md", "ab\ncd", true⟩ :
                      MdFile).content.data.length then "...".data else [])) :=
  contentHit_snippet_line.1 ["cd"] ⟨"x.md", "x.md", "ab\ncd", true⟩
    ⟨.content, "x.md", "x.md", "ab cd", some 2⟩ (by decide)

/-! ## Claim C8 -/

theorem strData_append (s t : String) : (s ++ t).data = s.data ++ t.data := by
  cases s; cases t; rfl

theorem strData_inj {s t : String} (h : s.data = t.data) : s = t :=
  String.ext h

theorem goodName_spec {n : String} (h : goodName n = true) :
    n ≠ "" ∧ '/' ∉ n.data := by
  simp only [goodName, Bool.and_eq_true, Bool.not_eq_true'] at h
  constructor
  · intro he; subst he; simp at h
  · intro hm
    have h2 := h.2
    simp at h2
    exact h2 hm

theorem segsOf_append_slash (xs ys : List Char) :
    segsOf (xs ++ '/' :: ys) = segsOf xs ++ segsOf ys :=
  splitDrop_append_sep _ '/' (by decide) xs ys

theorem segsOf_sepFree {n : String} (h : goodName n = true) :
    segsOf n.data = [n.data] := by
  rcases goodName_spec h with ⟨hne, hns⟩
  refine splitDrop_sepfree _ n.data ?_ ?_
  · intro hd
    exact hne (strData_inj (by simpa using hd))
  · intro c hc
    simp only [decide_eq_false_iff_not]
    intro he
    exact hns (he ▸ hc)

theorem segsOf_joinRel (pfx n : String) (h : goodName n = true) :
    segsOf (joinRel pfx n).data = segsOf pfx.data ++ [n.data] := by
  unfold joinRel
  by_cases hp : pfx = ""
  · subst hp
    rw [if_pos rfl, segsOf_sepFree h]
    have : ("" : String).data = [] := rfl
    rw [this]
    have : segsOf [] = [] := rfl
    rw [this, List.nil_append]
  · rw [if_neg hp]
    have hdata : (pfx ++ "/" ++ n).data = pfx.data ++ '/' :: n.data := by
      rw [strData_append, strData_append]
      have : ("/" : String).data = ['/'] := rfl
      rw [this]
      simp
    rw [hdata, segsOf_append_slash, segsOf_sepFree h]

theorem segsOf_concat_slash (xs : List Char) :
    segsOf (xs ++ ['/']) = segsOf xs := by
  have : xs ++ ['/'] = xs ++ '/' :: [] := rfl
  rw [this, segsOf_append_slash]
  have : segsOf [] = [] := rfl
  rw [this, List.append_nil]

theorem endsMdStr_append (pre : List Char) (n : String)
    (h : endsMdStr n = true) :
    (".md".data).isSuffixOf (pre ++ n.data) = true := by
  rw [endsMdStr] at h
  simp only [List.isSuffixOf_iff_suffix] at h ⊢
  exact h.trans (List.suffix_append pre n.data)

theorem endsMdStr_joinRel (pfx n : String) (h : endsMdStr n = true) :
    endsMdStr (joinRel pfx n) = true := by
  unfold joinRel
  by_cases hp : pfx = ""
  · rw [if_pos hp]; exact h
  · rw [if_neg hp]
    show (".md".data).isSuffixOf (pfx ++ "/" ++ n).data = true
    have hdata : (pfx ++ "/" ++ n).data = (pfx.data ++ ['/']) ++ n.data := by
      rw [strData_append, strData_append]
    rw [hdata]
    exact endsMdStr_append _ n h

theorem skipName_spec {n : String} (h : skipName n = false) :
    startsDotL n.data = false ∧ n.data ≠ ("node_modules" : String).data := by
  simp only [skipName, Bool.or_eq_false_iff] at h
  refine ⟨h.1, ?_⟩
  intro hd
  have : n = "node_modules" := strData_inj hd
  subst this
  simp at h

mutual
theorem mdOfEntry_clean (recursive : Bool) (pfx : String) (e : FsTree)
    (hg : goodTree e = true)
    (hpfx : ∀ seg ∈ segsOf pfx.data, startsDotL seg = false
      ∧ seg ≠ ("node_modules" : String).data) :
    ∀ p ∈ mdOfEntry recursive pfx e,
      (∀ seg ∈ segsOf p.data, startsDotL seg = false
        ∧ seg ≠ ("node_modules" : String).data)
      ∧ (endsSlashStr p = false → endsMdStr p = true) := by
  cases e with
  | file n =>
    intro p hp
    by_cases hskip : skipName n = true
    · simp [mdOfEntry, hskip] at hp
    · by_cases hmd : endsMdStr n = true
      · have hgood : goodName n = true := by simpa [goodTree] using hg
        simp only [mdOfEntry, hskip, Bool.false_eq_true, if_false, hmd,
          if_true, List.mem_singleton] at hp
        subst hp
        constructor
        · intro seg hseg
          rw [segsOf_joinRel pfx n hgood] at hseg
          rcases List.mem_append.mp hseg with hs | hs
          · exact hpfx seg hs
          · rw [List.mem_singleton] at hs
            subst hs
            exact skipName_spec (by simpa using hskip)
        · intro _
          exact endsMdStr_joinRel pfx n hmd
      · simp [mdOfEntry, hskip, hmd] at hp
  | dir n cs =>
    intro p hp
    by_cases hskip : skipName n = true
    · simp [mdOfEntry, hskip] at hp
    · have hgood : goodName n = true := by
        have := hg
        simp only [goodTree, Bool.and_eq_true] at this
        exact this.1
      have hcs : goodForest cs = true := by
        have := hg
        simp only [goodTree, Bool.and_eq_true] at this
        exact this.2
      have hinv : ∀ seg ∈ segsOf (joinRel pfx n).data,
          startsDotL seg = false ∧ seg ≠ ("node_modules" : String).data := by
        intro seg hseg
        rw [segsOf_joinRel pfx n hgood] at hseg
        rcases List.mem_append.mp hseg with hs | hs
        · exact hpfx seg hs
        · rw [List.mem_singleton] at hs
          subst hs
          exact skipName_spec (by simpa using hskip)
      by_cases hrec : recursive = true
      · subst hrec
        simp only [mdOfEntry, hskip, Bool.false_eq_true, if_false,
          if_true] at hp
        exact mdOfList_clean true (joinRel pfx n) cs hcs hinv p hp
      · have hrf : recursive = false := by
          cases recursive
          · rfl
          · exact absurd rfl hrec
        subst hrf
        simp only [mdOfEntry, hskip, Bool.false_eq_true, if_false,
          List.mem_singleton] at hp
        subst hp
        have hdata : (joinRel pfx n ++ "/").data
            = (joinRel pfx n).data ++ ['/'] := by
          rw [strData_append]
        constructor
        · intro seg hseg
          rw [hdata, segsOf_concat_slash] at hseg
          exact hinv seg hseg
        · intro hf
          exfalso
          have : endsSlashStr (joinRel pfx n ++ "/") = true := by
            rw [endsSlashStr, hdata]
            simp
          rw [this] at hf
          exact absurd hf (by simp)
theorem mdOfList_clean (recursive : Bool) (pfx : String) (es : FsForest)
    (hg : goodForest es = true)
    (hpfx : ∀ seg ∈ segsOf pfx.data, startsDotL seg = false
      ∧ seg ≠ ("node_modules" : String).data) :
    ∀ p ∈ mdOfList recursive pfx es,
      (∀ seg ∈ segsOf p.data, startsDotL seg = false
        ∧ seg ≠ ("node_modules" : String).data)
      ∧ (endsSlashStr p = false → endsMdStr p = true) := by
  cases es with
  | nil => intro p hp; simp [mdOfList] at hp
  | cons e rest =>
    intro p hp
    have hge : goodTree e = true := by
      have := hg
      simp only [goodForest, Bool.and_eq_true] at this
      exact this.1
    have hgr : goodForest rest = true := by
      have := hg
      simp only [goodForest, Bool.and_eq_true] at this
      exact this.2
    simp only [mdOfList, List.mem_append] at hp
    rcases hp with hp | hp
    · exact mdOfEntry_clean recursive pfx e hge hpfx p hp
    · exact mdOfList_clean recursive pfx rest hgr hpfx p hp
end

/-- C8 (confirmed): for every directory tree with legal entry names, every
path yielded by the scan has no segment starting with a dot and no
`node_modules` segment at any depth, and every non-directory entry (no
trailing `/`) has the Markdown extension. -/
theorem getMarkdownFiles_clean (entries : FsForest) (recursive : Bool)
    (hg : goodForest entries = true) :
    ∀ p ∈ getMarkdownFiles entries "" recursive,
      (∀ seg ∈ segsOf p.data, startsDotL seg = false
        ∧ seg ≠ ("node_modules" : String).data)
      ∧ (endsSlashStr p = false → endsMdStr p = true) := by
  refine mdOfList_clean recursive "" entries hg ?_
  intro seg hseg
  have : segsOf ("" : String).data = [] := rfl
  rw [this] at hseg
  exact absurd hseg (List.not_mem_nil seg)

/-- Witness for C8: the scan of the demo tree yields `docs/a.md`, whose
segments are clean and whose extension is `.md`. -/
theorem getMarkdownFiles_clean_witness :
    goodForest demoForest = true
    ∧ ((∀ seg ∈ segsOf ("docs/a.md" : String).data, startsDotL seg = false
        ∧ seg ≠ ("node_modules" : String).data)
      ∧ (endsSlashStr "docs/a.md" = false → endsMdStr "docs/a.md" = true)) :=
  ⟨by decide,
   getMarkdownFiles_clean demoForest true (by decide) "docs/a.md" (by decide)⟩

/-! ## Claim C4 -/

/-- C4 (confirmed): a burst of notify calls for one project, each arriving
within less than the debounce window of the previous one, produces exactly
one timer-callback execution — each arrival replaces the pending timer
instead of stacking a second one, and the single broadcast goes to the
registered subscribers. -/
theorem debounce_single_broadcast (subs : List ConnState) (t0 : Nat)
    (rest : List Nat)
    (hchain : List.Chain (fun a b => a ≤ b ∧ b < a + debounceWindow) t0 rest) :
    (debounceRun (some subs) (t0 :: rest)).log = [timerCallback (some subs)]
    ∧ (debounceRun (some subs) (t0 :: rest)).log.length = 1 := by
  have key : ∀ (r : List Nat) (prev : Nat),
      List.Chain (fun a b => a ≤ b ∧ b < a + debounceWindow) prev r →
      ∃ last, r.foldl (notifyClients (some subs))
          ⟨some (prev + debounceWindow), []⟩
        = ⟨some (last + debounceWindow), []⟩ := by
    intro r
    induction r with
    | nil => intro prev _; exact ⟨prev, rfl⟩
    | cons b tl ih =>
      intro prev hc
      cases hc with
      | cons hR hc2 =>
        have hnot : ¬ (prev + debounceWindow ≤ b) := by
          have := hR.2
          omega
        have hstep : notifyClients (some subs)
            ⟨some (prev + debounceWindow), []⟩ b
            = ⟨some (b + debounceWindow), []⟩ := by
          simp [notifyClients, hnot]
        rw [List.foldl_cons, hstep]
        exact ih b hc2
  have h0 : (t0 :: rest).foldl (notifyClients (some subs)) ⟨none, []⟩
      = rest.foldl (notifyClients (some subs))
          ⟨some (t0 + debounceWindow), []⟩ := by
    rw [List.foldl_cons]
    have : notifyClients (some subs) ⟨none, []⟩ t0
        = ⟨some (t0 + debounceWindow), []⟩ := by
      simp [notifyClients]
    rw [this]
  rcases key rest t0 hchain with ⟨last, hlast⟩
  constructor
  · rw [debounceRun, h0, hlast]
    simp [flushTimer]
  · rw [debounceRun, h0, hlast]
    simp [flushTimer]

/-- Witness for C4: three events 0, 50, 120 (gaps 50 and 70, both below
the 100 ms window) yield exactly one broadcast. -/
theorem debounce_single_broadcast_witness :
    (debounceRun (some [⟨1, true, false⟩]) [0, 50, 120]).log
      = [timerCallback (some [⟨1, true, false⟩])]
    ∧ (debounceRun (some [⟨1, true, false⟩]) [0, 50, 120]).log.length = 1 :=
  debounce_single_broadcast [⟨1, true, false⟩] 0 [50, 120]
    (by simp [List.chain_cons, debounceWindow])

/-! ## Claim C2 -/

/-- C2 counterexample (claim refuted): with one writable subscriber the
timer callback's first action is the broadcast write and the map removal
is the last — the timer is not removed from the pending-timer map before
the broadcast as the claim states. -/
theorem timerCallback_counter :
    timerCallback (some [⟨0, true, false⟩])
      = [MicroAct.write 0, MicroAct.delTimer]
    ∧ (timerCallback (some [⟨0, true, false⟩])).head?
        ≠ some MicroAct.delTimer := by
  decide

/-- C2 amended (proved): on firing, the callback removes the timer from
the pending-timer map after the broadcast loop completes — `delTimer`
occurs exactly once, as the final action, preceded only by writes — and
when no subscriber set exists the callback returns early without removing
the map entry at all. -/
theorem timerCallback_delete_after (cs : List ConnState) :
    (timerCallback (some cs)).getLast? = some MicroAct.delTimer
    ∧ (∀ a ∈ (timerCallback (some cs)).dropLast, ∃ i, a = MicroAct.write i)
    ∧ (timerCallback (some cs)).count MicroAct.delTimer = 1
    ∧ timerCallback none = [] := by
  refine ⟨?_, ?_, ?_, rfl⟩
  · simp [timerCallback]
  · intro a ha
    simp only [timerCallback, List.dropLast_concat] at ha
    rcases List.mem_map.mp ha with ⟨cc, _, hc⟩
    exact ⟨cc.id, hc.symm⟩
  · simp only [timerCallback]
    rw [List.count_append]
    have h0 : ((cs.filter (fun cc => cc.writable && !cc.finished)).map
        (fun cc => MicroAct.write cc.id)).count MicroAct.delTimer = 0 := by
      rw [List.count_eq_zero]
      intro hmem
      rcases List.mem_map.mp hmem with ⟨cc, _, hc⟩
      exact absurd hc (by simp)
    rw [h0]
    simp

/-- Witness for C2's amended theorem at one writable subscriber. -/
theorem timerCallback_delete_after_witness :
    (timerCallback (some [⟨3, true, false⟩])).getLast?
      = some MicroAct.delTimer
    ∧ (∃ i, MicroAct.write 3 = MicroAct.write i) :=
  ⟨(timerCallback_delete_after [⟨3, true, false⟩]).1,
   (timerCallback_delete_after [⟨3, true, false⟩]).2.1
     (MicroAct.write 3) (by decide)⟩

/-! ## Claim C1 -/

theorem mapLookup_mapSet_self (m : List (String × List Nat)) (k : String)
    (v : List Nat) : mapLookup (mapSet m k v) k = some v := by
  induction m with
  | nil => simp [mapSet, mapLookup]
  | cons e rest ih =>
    rcases e with ⟨k2, v2⟩
    by_cases hk : k2 = k
    · simp [mapSet, mapLookup, hk]
    · simp [mapSet, mapLookup, hk, ih]

theorem addClient_watchers (pid : String) (c : Nat) (st : SrvState) :
    (addClient pid c st).watchers = st.watchers := by
  unfold addClient
  dsimp only
  split <;> rfl

theorem addClient_mem (pid : String) (c : Nat) (st : SrvState) :
    c ∈ subscribersOf pid (addClient pid c st) := by
  unfold addClient
  by_cases h0 : (mapLookup st.clients pid).isNone = true
  · rw [if_pos h0]
    dsimp only
    rw [mapLookup_mapSet_self]
    dsimp only
    unfold subscribersOf
    dsimp only
    rw [mapLookup_mapSet_self]
    simp
  · rw [if_neg h0]
    dsimp only
    cases h : mapLookup st.clients pid with
    | none => rw [h] at h0; simp at h0
    | some s =>
      dsimp only
      unfold subscribersOf
      dsimp only
      rw [mapLookup_mapSet_self]
      simp only [Option.getD_some]
      by_cases hc : c ∈ s
      · have hcc : s.contains c = true := by simpa using hc
        rw [if_pos hcc]
        exact hc
      · have hcc : ¬ (s.contains c = true) := by simpa using hc
        rw [if_neg hcc]
        simp

/-- C1 counterexample (claim refuted): subscribing with a project id that
names no existing project does not end the stream — the handler still
emits the connected acknowledgment, starts the heartbeat, and registers
the subscriber (only the watcher setup is skipped). -/
theorem handleReload_counter :
    (handleReload [⟨"a", "/a"⟩] (some "nope") 5 ⟨[], [], []⟩).2
      = ⟨[SseEvent.connected], false, true, false⟩
    ∧ subscribersOf "nope"
        (handleReload [⟨"a", "/a"⟩] (some "nope") 5 ⟨[], [], []⟩).1 = [5] := by
  decide

/-- C1 amended (proved): only a missing (or empty) project id ends the
stream immediately with no events, no heartbeat and no registration; a
nonempty project id naming no existing project still receives the
connected acknowledgment, a heartbeat, and a subscriber registration —
only the watcher setup is skipped, leaving the watcher map unchanged. -/
theorem handleReload_spec (projects : List Project) (pidOpt : Option String)
    (c : Nat) (st : SrvState) :
    ((pidOpt = none ∨ pidOpt = some "") →
      handleReload projects pidOpt c st = (st, ⟨[], true, false, false⟩))
    ∧ (∀ pid, pidOpt = some pid → pid ≠ "" →
        projects.find? (fun p => p.id == pid) = none →
        (handleReload projects pidOpt c st).2
            = ⟨[SseEvent.connected], false, true, false⟩
          ∧ (handleReload projects pidOpt c st).1.watchers = st.watchers
          ∧ c ∈ subscribersOf pid (handleReload projects pidOpt c st).1) := by
  constructor
  · rintro (rfl | rfl)
    · rfl
    · simp [handleReload]
  · intro pid hp hne hfind
    subst hp
    have hred : handleReload projects (some pid) c st
        = (addClient pid c st, ⟨[SseEvent.connected], false, true, false⟩) := by
      simp [handleReload, hne, hfind]
    rw [hred]
    exact ⟨rfl, addClient_watchers pid c st, addClient_mem pid c st⟩

/-- Witness for C1's amended theorem. -/
theorem handleReload_spec_witness :
    handleReload [] none 0 ⟨[], [], []⟩
      = (⟨[], [], []⟩, ⟨[], true, false, false⟩)
    ∧ ((handleReload [] (some "x") 0 ⟨[], [], []⟩).2
        = ⟨[SseEvent.connected], false, true, false⟩
      ∧ (handleReload [] (some "x") 0 ⟨[], [], []⟩).1.watchers
          = (⟨[], [], []⟩ : SrvState).watchers
      ∧ 0 ∈ subscribersOf "x" (handleReload [] (some "x") 0 ⟨[], [], []⟩).1) :=
  ⟨(handleReload_spec [] none 0 ⟨[], [], []⟩).1 (Or.inl rfl),
   (handleReload_spec [] (some "x") 0 ⟨[], [], []⟩).2 "x" rfl
     (by decide) (by decide)⟩

/-! ## Claim C5 -/

theorem mapSet_lookup_self (m : List (String × List Nat)) (k : String)
    (v : List Nat) (h : mapLookup m k = some v) : mapSet m k v = m := by
  induction m with
  | nil => simp [mapLookup] at h
  | cons e rest ih =>
    rcases e with ⟨k2, v2⟩
    by_cases hk : k2 = k
    · rw [mapLookup, if_pos hk] at h
      have hv : v2 = v := by simpa using h
      subst hv
      simp [mapSet, hk]
    · rw [mapLookup, if_neg hk] at h
      simp [mapSet, hk, ih h]

theorem mapLookup_mem (m : List (String × List Nat)) (k : String)
    (v : List Nat) (h : mapLookup m k = some v) : (k, v) ∈ m := by
  induction m with
  | nil => simp [mapLookup] at h
  | cons e rest ih =>
    rcases e with ⟨k2, v2⟩
    by_cases hk : k2 = k
    · rw [mapLookup, if_pos hk] at h
      have hv : v2 = v := by simpa using h
      subst hv
      subst hk
      simp
    · rw [mapLookup, if_neg hk] at h
      exact List.mem_cons_of_mem _ (ih h)

/-- C5 (confirmed): `removeClient` is idempotent on well-formed states;
draining a project's subscriber set to one-then-zero leaves
`subscribersOf` empty, deletes the watch handle, and logs the teardown
exactly once — precisely when a watcher existed; and on an already-empty
subscriber set (under the reachable-state invariant that a watcher implies
a nonempty set) the call changes nothing and fires no teardown. -/
theorem removeClient_spec (st : SrvState) (pid : String) (c : Nat) :
    (WFState st →
      removeClient pid c (removeClient pid c st) = removeClient pid c st)
    ∧ (WFState st → subscribersOf pid st = [c] →
        subscribersOf pid (removeClient pid c st) = []
        ∧ (removeClient pid c st).watchers.contains pid = false
        ∧ (removeClient pid c st).teardowns
            = st.teardowns
              ++ (if st.watchers.contains pid then [pid] else []))
    ∧ (WatcherInv st → subscribersOf pid st = [] →
        removeClient pid c st = st) := by
  refine ⟨?_, ?_, ?_⟩
  · intro hwf
    cases h : mapLookup st.clients pid with
    | none =>
      have e : removeClient pid c st = st := by simp [removeClient, h]
      rw [e]; exact e
    | some s =>
      have hsnd : s.Nodup := hwf.2.1 (pid, s) (mapLookup_mem _ _ _ h)
      have hs2 : c ∉ s.erase c := by
        intro hmem
        exact ((hsnd.mem_erase_iff).mp hmem).1 rfl
      have herase2 : (s.erase c).erase c = s.erase c :=
        List.erase_of_not_mem hs2
      have hlook2 : mapLookup (mapSet st.clients pid (s.erase c)) pid
          = some (s.erase c) := mapLookup_mapSet_self _ _ _
      have hset2 : mapSet (mapSet st.clients pid (s.erase c)) pid (s.erase c)
          = mapSet st.clients pid (s.erase c) :=
        mapSet_lookup_self _ _ _ hlook2
      by_cases hz : (s.erase c).length = 0
      · by_cases hw : pid ∈ st.watchers
        · have e1 : removeClient pid c st
              = ⟨mapSet st.clients pid (s.erase c), st.watchers.erase pid,
                 st.teardowns ++ [pid]⟩ := by
            simp [removeClient, h, hz, hw]
          rw [e1]
          have hw2 : pid ∉ st.watchers.erase pid := fun hmem =>
            ((hwf.2.2.mem_erase_iff).mp hmem).1 rfl
          simp [removeClient, hlook2, herase2, hset2, hz, hw2]
        · have e1 : removeClient pid c st
              = { st with clients := mapSet st.clients pid (s.erase c) } := by
            simp [removeClient, h, hz, hw]
          rw [e1]
          simp [removeClient, hlook2, herase2, hset2, hz, hw]
      · have e1 : removeClient pid c st
            = { st with clients := mapSet st.clients pid (s.erase c) } := by
          simp [removeClient, h, hz]
        rw [e1]
        simp [removeClient, hlook2, herase2, hset2, hz]
  · intro hwf hsub
    have h : mapLookup st.clients pid = some [c] := by
      unfold subscribersOf at hsub
      cases hl : mapLookup st.clients pid with
      | none => rw [hl] at hsub; simp at hsub
      | some s =>
        rw [hl] at hsub
        simp only [Option.getD_some] at hsub
        rw [hsub]
    by_cases hw : pid ∈ st.watchers
    · have hwc : st.watchers.contains pid = true := by simpa using hw
      have e1 : removeClient pid c st
          = ⟨mapSet st.clients pid [], st.watchers.erase pid,
             st.teardowns ++ [pid]⟩ := by
        simp [removeClient, h, hw]
      rw [e1]
      refine ⟨?_, ?_, ?_⟩
      · unfold subscribersOf
        rw [mapLookup_mapSet_self]
        rfl
      · have : pid ∉ st.watchers.erase pid := fun hmem =>
          ((hwf.2.2.mem_erase_iff).mp hmem).1 rfl
        simpa using this
      · rw [if_pos hwc]
    · have hwc : ¬ (st.watchers.contains pid = true) := by simpa using hw
      have e1 : removeClient pid c st
          = { st with clients := mapSet st.clients pid [] } := by
        simp [removeClient, h, hw]
      rw [e1]
      refine ⟨?_, ?_, ?_⟩
      · unfold subscribersOf
        rw [mapLookup_mapSet_self]
        rfl
      · simpa using hw
      · rw [if_neg hwc]
        simp
  · intro hinv hsub
    cases h : mapLookup st.clients pid with
    | none => simp [removeClient, h]
    | some s =>
      have hs : s = [] := by
        unfold subscribersOf at hsub
        rw [h] at hsub
        simpa using hsub
      subst hs
      have hw : pid ∉ st.watchers := by
        intro hmem
        exact (hinv pid hmem) hsub
      have hset : mapSet st.clients pid [] = st.clients :=
        mapSet_lookup_self _ _ _ h
      simp [removeClient, h, hw, hset]

/-- Witness for C5: a project with one subscriber and a live watcher is
drained; removing again changes nothing; removing from a project whose
set is already empty (and, per the invariant, unwatched) is a no-op. -/
theorem removeClient_spec_witness :
    removeClient "p" 7 (removeClient "p" 7 ⟨[("p", [7])], ["p"], []⟩)
      = removeClient "p" 7 ⟨[("p", [7])], ["p"], []⟩
    ∧ (subscribersOf "p" (removeClient "p" 7 ⟨[("p", [7])], ["p"], []⟩) = []
      ∧ (removeClient "p" 7
          ⟨[("p", [7])], ["p"], []⟩).watchers.contains "p" = false
      ∧ (removeClient "p" 7 ⟨[("p", [7])], ["p"], []⟩).teardowns
          = ([] : List String)
            ++ (if (["p"] : List String).contains "p" then ["p"] else []))
    ∧ removeClient "q" 3 ⟨[("q", [])], [], []⟩ = ⟨[("q", [])], [], []⟩ :=
  ⟨(removeClient_spec ⟨[("p", [7])], ["p"], []⟩ "p" 7).1
     ⟨by decide, by decide, by decide⟩,
   (removeClient_spec ⟨[("p", [7])], ["p"], []⟩ "p" 7).2.1
     ⟨by decide, by decide, by decide⟩ (by decide),
   (removeClient_spec ⟨[("q", [])], [], []⟩ "q" 3).2.2
     (by intro pid hmem; simp at hmem) (by decide)⟩

/-! ## Claim C3 -/

/-- C3 counterexample (claim refuted): the relative path `..x` contains no
`..` segment and no leading absolute marker — `/r/..x` lies inside `/r` —
yet `isPathWithinProject "/r" "..x"` returns false, because the guard
tests `relative.startsWith('..')`, which also matches the harmless name
`..x`. -/
theorem isPathWithinProject_counter :
    ddSegL ∉ segsOf ("..x" : String).data
    ∧ headIsSlash ("..x" : String).data = false
    ∧ isPathWithinProject "/r" "..x" = false := by
  refine ⟨by decide, by decide, by decide⟩

/-- Witness for C3's amended theorem: an escaping path is rejected and a
plain relative path is accepted. -/
theorem isPathWithinProject_spec_witness :
    isPathWithinProject "/r" "../../x" = false
    ∧ isPathWithinProject "/r" "a/b.md" = true :=
  ⟨(isPathWithinProject_spec "/r" "../../x" (by decide)).1 (by decide),
   (isPathWithinProject_spec "/r" "a/b.md" (by decide)).2
     (by decide) (by decide) (by decide)⟩

end MermaidServer
